import Mathlib

/-!
Verification of the LRU cache with per-entry TTL (Go package `cache`).

The embedding models the `cache` struct of the source: `items` is a Go map
from key to a pointer at the list element holding that key's `item` struct,
and `list` is the recency list of those same `item` structs.  Because the
map stores pointers into the list, the map entry for a key and the list
node for that key are one object; the state is therefore modelled as

  * `order` — the recency list (front of the Go `container/list` first),
    holding the `item` structs themselves;
  * `index` — the key set of the `items` map;

and a map lookup `c.items[key]` is the pair "is `key` in `index`" (the
`ok` boolean) and "the node in `order` whose `key` field equals `key`"
(the `*list.Element` the map stores, by the pointer identity above).

Go `time.Time` values are modelled as `Nat` (nanoseconds since the zero
time): the zero `time.Time` is `0`, `IsZero` is `= 0`, `Before` is `<`,
and `time.Now().Add(d)` is `now + d`.  An `item` added by `Add` stores the
zero time (`ttl = 0`), meaning "no expiry".
-/

set_option linter.unusedSectionVars false

namespace LRUCache

/-- The `item` struct: key, value, and the expiry instant (`ttl` field);
`ttl = 0` is Go's zero `time.Time`, used for entries without a deadline. -/
structure Item (K V : Type) where
  key : K
  value : V
  ttl : Nat
deriving DecidableEq, Repr

/-- The `cache` struct: `capacity`, the recency list (`order`, modelling
`list` with its front first) and the key set of the `items` map (`index`). -/
structure Cache (K V : Type) where
  capacity : Nat
  order : List (Item K V)
  index : List K
deriving DecidableEq, Repr

variable {K V : Type} [DecidableEq K] [DecidableEq V]

/-- `elem, ok := c.items[key]`: the lookup succeeds iff `key` is in the map
(`index`), and the element it returns is the node of `order` holding `key`
(the map stores a pointer to that list element). -/
def itemsLookup (c : Cache K V) (k : K) : Option (Item K V) :=
  if c.index.contains k then c.order.find? (fun x => x.key == k) else none

/-- `NewCache(cap)`: rejects `cap <= 0` with the `invalid capacity` error,
otherwise returns a cache with an empty map and empty list. -/
def NewCache (K V : Type) (cap : Int) : Except String (Cache K V) :=
  if cap ≤ 0 then .error "invalid capacity"
  else .ok { capacity := cap.toNat, order := [], index := [] }

/-- `deleteItem(key)`: if `key` is in the map, remove its element from the
list and delete the element's key from the map. -/
def deleteItem (c : Cache K V) (k : K) : Cache K V :=
  match itemsLookup c k with
  | none => c
  | some elem =>
      { c with
        order := c.order.eraseP (fun x => x.key == elem.key),
        index := c.index.eraseP (fun x => x == elem.key) }

/-- `deleteLRU()`: take the back element of the list; if it exists, remove
it from the list and delete its key from the map. -/
def deleteLRU (c : Cache K V) : Cache K V :=
  match c.order.getLast? with
  | none => c
  | some elem =>
      { c with
        order := c.order.dropLast,
        index := c.index.eraseP (fun x => x == elem.key) }

/-- `Add(key, value)`: on an existing key, write the value if it differs,
set `ttl` to the zero time and move the node to the front; on a new key,
first run `deleteLRU` when `list.Len() >= capacity`, then push a node with
the zero-time `ttl` to the front and insert the key into the map. -/
def Add (c : Cache K V) (k : K) (v : V) : Cache K V :=
  match itemsLookup c k with
  | some elem =>
      { c with
        order :=
          { elem with
            value := if elem.value == v then elem.value else v,
            ttl := 0 } :: c.order.eraseP (fun x => x.key == k) }
  | none =>
      let c1 := if c.order.length ≥ c.capacity then deleteLRU c else c
      { c1 with order := ⟨k, v, 0⟩ :: c1.order, index := k :: c1.index }

/-- `AddWithTTL(key, value, ttl)`: same as `Add` except both paths store
`time.Now().Add(ttl)`, i.e. `now + d`, as the expiry. -/
def AddWithTTL (c : Cache K V) (k : K) (v : V) (now d : Nat) : Cache K V :=
  match itemsLookup c k with
  | some elem =>
      { c with
        order :=
          { elem with
            value := if elem.value == v then elem.value else v,
            ttl := now + d } :: c.order.eraseP (fun x => x.key == k) }
  | none =>
      let c1 := if c.order.length ≥ c.capacity then deleteLRU c else c
      { c1 with order := ⟨k, v, now + d⟩ :: c1.order, index := k :: c1.index }

/-- `Cap()`: the configured capacity. -/
def Cap (c : Cache K V) : Nat :=
  c.capacity

/-- `Clear()`: fresh empty map, `list.Init()`. -/
def Clear (c : Cache K V) : Cache K V :=
  { c with order := [], index := [] }

/-- `Get(key)`: absent key gives `(nil, false)` (modelled `none`); a present
element whose `ttl` is not the zero time and is before `now` is deleted via
`deleteItem` and `(nil, false)` is returned; otherwise the node moves to the
front and `(value, true)` (modelled `some value`) is returned. -/
def Get (c : Cache K V) (k : K) (now : Nat) : Option V × Cache K V :=
  match itemsLookup c k with
  | none => (none, c)
  | some elem =>
      if elem.ttl ≠ 0 ∧ elem.ttl < now then
        (none, deleteItem c elem.key)
      else
        (some elem.value,
         { c with order := elem :: c.order.eraseP (fun x => x.key == k) })

/-- `Remove(key)`: `deleteItem` under the lock. -/
def Remove (c : Cache K V) (k : K) : Cache K V :=
  deleteItem c k

/-- The loop body of one tick of `deleteByTTL`: walk the elements captured
front to back (`next` is saved before a possible deletion, so every element
of the original list is visited once) and delete, via `deleteItem`, any
element whose `ttl` is before `now`.  Note the source guards only with
`ttl.Before(time.Now())` — there is no `IsZero` check here, unlike `Get`. -/
def deleteByTTLSweep : List (Item K V) → Cache K V → Nat → Cache K V
  | [], c, _ => c
  | elem :: rest, c, now =>
      deleteByTTLSweep rest
        (if elem.ttl < now then deleteItem c elem.key else c) now

/-- One `ticker.C` tick of the reaper `deleteByTTL`, taken at time `now`. -/
def deleteByTTLTick (c : Cache K V) (now : Nat) : Cache K V :=
  deleteByTTLSweep c.order c now

/-- The reaper goroutine's control state: it is `running` (blocked in its
`select` between `ticker.C` and `done`, or mid-sweep) until it receives on
`done`, after which it has returned (`stopped`). -/
inductive ReaperState
  | running
  | stopped
deriving DecidableEq, Repr

/-- `StopTTLRemoval()` performs `c.done <- struct{}{}` on the unbuffered
`done` channel.  The send rendezvouses with the reaper's `case <-c.done`
exactly when the reaper is still running, stopping it; once the reaper has
returned there is no receiver, and the send blocks forever (`none`). -/
def StopTTLRemoval : ReaperState → Option ReaperState
  | .running => some .stopped
  | .stopped => none

/-- A Go `interface{}` value as stored in the `value` field: a dynamic type
(`ty`), a payload (`val`), and whether the dynamic type is comparable
(`cmp` — false for slices, maps and functions). -/
structure GoVal where
  ty : Nat
  val : Nat
  cmp : Bool
deriving DecidableEq, Repr

/-- Go's `x != y` on two `interface{}` values: if the dynamic types differ
the values are unequal; if they coincide and the type is comparable the
payloads are compared; if they coincide and the type is not comparable the
comparison is a runtime fault (`none`). -/
def goValNe (x y : GoVal) : Option Bool :=
  if x.ty ≠ y.ty then some true
  else if x.cmp && y.cmp then some (decide (x.val ≠ y.val)) else none

/-- `Add(key, value)` with the value comparison `elem.value != value` made
explicit: `none` models the run aborting in that comparison. -/
def AddGo (c : Cache K GoVal) (k : K) (v : GoVal) : Option (Cache K GoVal) :=
  match itemsLookup c k with
  | some elem =>
      match goValNe elem.value v with
      | none => none
      | some b =>
          some
            { c with
              order :=
                { elem with
                  value := if b then v else elem.value,
                  ttl := 0 } :: c.order.eraseP (fun x => x.key == k) }
  | none =>
      some
        (let c1 := if c.order.length ≥ c.capacity then deleteLRU c else c
         { c1 with order := ⟨k, v, 0⟩ :: c1.order, index := k :: c1.index })

/-- `AddWithTTL(key, value, ttl)` with the value comparison made explicit,
as in `AddGo`. -/
def AddWithTTLGo (c : Cache K GoVal) (k : K) (v : GoVal) (now d : Nat) :
    Option (Cache K GoVal) :=
  match itemsLookup c k with
  | some elem =>
      match goValNe elem.value v with
      | none => none
      | some b =>
          some
            { c with
              order :=
                { elem with
                  value := if b then v else elem.value,
                  ttl := now + d } :: c.order.eraseP (fun x => x.key == k) }
  | none =>
      some
        (let c1 := if c.order.length ≥ c.capacity then deleteLRU c else c
         { c1 with order := ⟨k, v, now + d⟩ :: c1.order, index := k :: c1.index })

/-- The recency-bump scenario of the spec, capacity 3, with keys A=1, B=2,
C=3, D=4: `Add(A,10); Add(B,20); Add(C,30); Get(A); Add(D,40)`. -/
def lruScenario : Cache Nat Nat :=
  Add (Get (Add (Add (Add (⟨3, [], []⟩ : Cache Nat Nat) 1 10) 2 20) 3 30)
      1 100).2 4 40

/-- States reachable from a successful `NewCache` by the public operations
and by ticks of the background reaper. -/
inductive Reachable : Cache K V → Prop
  | new (cap : Int) (c : Cache K V) : NewCache K V cap = .ok c → Reachable c
  | add (c : Cache K V) (k : K) (v : V) : Reachable c → Reachable (Add c k v)
  | addWithTTL (c : Cache K V) (k : K) (v : V) (now d : Nat) :
      Reachable c → Reachable (AddWithTTL c k v now d)
  | get (c : Cache K V) (k : K) (now : Nat) :
      Reachable c → Reachable (Get c k now).2
  | remove (c : Cache K V) (k : K) : Reachable c → Reachable (Remove c k)
  | clear (c : Cache K V) : Reachable c → Reachable (Clear c)
  | tick (c : Cache K V) (now : Nat) :
      Reachable c → Reachable (deleteByTTLTick c now)

/-- The structural invariant: positive capacity, no duplicate keys in the
recency list, map keys a permutation of the list keys, size within
capacity. -/
def Inv (c : Cache K V) : Prop :=
  0 < c.capacity ∧
  (c.order.map Item.key).Nodup ∧
  c.index.Perm (c.order.map Item.key) ∧
  c.order.length ≤ c.capacity

/-! ### Helper lemmas about the list operations -/

lemma eraseP_beq_eq_erase (l : List K) (k : K) :
    l.eraseP (fun x => x == k) = l.erase k := by
  induction l with
  | nil => rfl
  | cons a t ih =>
      by_cases h : a = k
      · simp [List.eraseP_cons, List.erase_cons, h]
      · simp [List.eraseP_cons, List.erase_cons, h, ih]

lemma map_key_eraseP (l : List (Item K V)) (k : K) :
    (l.eraseP (fun x => x.key == k)).map Item.key = (l.map Item.key).erase k := by
  induction l with
  | nil => rfl
  | cons a t ih =>
      by_cases h : a.key = k
      · simp [List.eraseP_cons, List.erase_cons, h]
      · simp [List.eraseP_cons, List.erase_cons, h, ih]

lemma lookup_some {c : Cache K V} {k : K} {elem : Item K V}
    (h : itemsLookup c k = some elem) :
    elem ∈ c.order ∧ elem.key = k ∧ k ∈ c.index := by
  unfold itemsLookup at h
  by_cases hc : c.index.contains k
  · rw [if_pos hc] at h
    refine ⟨List.mem_of_find?_eq_some h, ?_, by simpa using hc⟩
    have := List.find?_some h
    simpa using this
  · rw [if_neg hc] at h
    exact absurd h (by simp)

lemma lookup_none {c : Cache K V} {k : K} (hinv : Inv c)
    (h : itemsLookup c k = none) : k ∉ c.index ∧ k ∉ c.order.map Item.key := by
  obtain ⟨-, -, hperm, -⟩ := hinv
  unfold itemsLookup at h
  by_cases hc : c.index.contains k
  · rw [if_pos hc] at h
    have hk : k ∈ c.index := by simpa using hc
    have : ∀ x ∈ c.order, ¬ x.key = k := by
      have := List.find?_eq_none.mp h
      simpa using this
    have hkeys : k ∉ c.order.map Item.key := by
      simp only [List.mem_map]
      rintro ⟨x, hx, rfl⟩
      exact this x hx rfl
    exact absurd (hperm.mem_iff.mp hk) hkeys
  · have hk : k ∉ c.index := by simpa using hc
    refine ⟨hk, fun hkeys => hk (hperm.mem_iff.mpr hkeys)⟩

/-! ### Preservation of the invariant -/

lemma inv_deleteItem {c : Cache K V} (h : Inv c) (k : K) :
    Inv (deleteItem c k) := by
  obtain ⟨hcap, hnd, hperm, hlen⟩ := h
  cases hl : itemsLookup c k with
  | none => simpa [deleteItem, hl] using ⟨hcap, hnd, hperm, hlen⟩
  | some elem =>
      obtain ⟨hmem, hkey, hidx⟩ := lookup_some hl
      simp only [deleteItem, hl]
      refine ⟨hcap, ?_, ?_, ?_⟩
      · show ((c.order.eraseP (fun x => x.key == elem.key)).map Item.key).Nodup
        rw [map_key_eraseP]
        exact hnd.erase _
      · show (c.index.eraseP (fun x => x == elem.key)).Perm _
        rw [eraseP_beq_eq_erase, map_key_eraseP]
        exact hperm.erase _
      · show (c.order.eraseP (fun x => x.key == elem.key)).length ≤ c.capacity
        exact le_trans ((List.eraseP_sublist _).length_le) hlen

lemma inv_deleteLRU {c : Cache K V} (h : Inv c) : Inv (deleteLRU c) := by
  obtain ⟨cap, ord, idx⟩ := c
  obtain ⟨hcap, hnd, hperm, hlen⟩ := h
  rcases List.eq_nil_or_concat ord with rfl | ⟨l', a, rfl⟩
  · simpa [deleteLRU] using ⟨hcap, hnd, hperm, hlen⟩
  · simp only [List.concat_eq_append] at *
    have hgl : (l' ++ [a]).getLast? = some a := List.getLast?_concat l'
    simp only [deleteLRU, hgl, List.dropLast_concat]
    simp only [List.map_append, List.map_cons, List.map_nil, List.nodup_append] at hnd
    obtain ⟨hnd', -, hdisj⟩ := hnd
    have hnotmem : a.key ∉ l'.map Item.key := fun hm => hdisj hm (by simp)
    refine ⟨hcap, hnd', ?_, ?_⟩
    · show (idx.eraseP (fun x => x == a.key)).Perm (l'.map Item.key)
      rw [eraseP_beq_eq_erase]
      have : (l' ++ [a]).map Item.key = l'.map Item.key ++ [a.key] := by simp
      have h2 : ((l' ++ [a]).map Item.key).erase a.key = l'.map Item.key := by
        rw [this, List.erase_append_right _ hnotmem, List.erase_cons_head,
          List.append_nil]
      have h3 := hperm.erase a.key
      rwa [h2] at h3
    · show l'.length ≤ cap
      simp only [List.length_append, List.length_cons, List.length_nil] at hlen
      omega

lemma inv_move_front {c : Cache K V} {k : K} {elem : Item K V}
    (hfound : itemsLookup c k = some elem) (it : Item K V)
    (hkey : it.key = elem.key) (h : Inv c) :
    Inv { c with order := it :: c.order.eraseP (fun x => x.key == k) } := by
  obtain ⟨hcap, hnd, hperm, hlen⟩ := h
  obtain ⟨hmem, hk, hidx⟩ := lookup_some hfound
  have hkmem : k ∈ c.order.map Item.key := by
    simpa [hk] using List.mem_map_of_mem Item.key hmem
  refine ⟨hcap, ?_, ?_, ?_⟩
  · show (it.key :: (c.order.eraseP (fun x => x.key == k)).map Item.key).Nodup
    rw [map_key_eraseP, hkey, hk]
    refine List.nodup_cons.mpr ⟨?_, hnd.erase _⟩
    intro hcon
    exact absurd ((hnd.mem_erase_iff.mp hcon).1) (by simp)
  · show c.index.Perm (it.key :: (c.order.eraseP (fun x => x.key == k)).map Item.key)
    rw [map_key_eraseP, hkey, hk]
    exact hperm.trans (List.perm_cons_erase hkmem)
  · show (it :: c.order.eraseP (fun x => x.key == k)).length ≤ c.capacity
    have h1 : (c.order.eraseP (fun x => x.key == k)).length =
        ((c.order.map Item.key).erase k).length := by
      rw [← map_key_eraseP, List.length_map]
    have h2 : ((c.order.map Item.key).erase k).length =
        (c.order.map Item.key).length - 1 := List.length_erase_of_mem hkmem
    have h3 : 0 < (c.order.map Item.key).length := List.length_pos_of_mem hkmem
    simp only [List.length_cons, h1, h2, List.length_map] at *
    omega

lemma inv_insert_new {c : Cache K V} {k : K} (it : Item K V) (hkey : it.key = k)
    (h : Inv c) (habs : itemsLookup c k = none) :
    Inv (let c1 := if c.order.length ≥ c.capacity then deleteLRU c else c
         { c1 with order := it :: c1.order, index := k :: c1.index }) := by
  obtain ⟨hidx, hkeys⟩ := lookup_none h habs
  obtain ⟨hcap, hnd, hperm, hlen⟩ := h
  by_cases hfull : c.order.length ≥ c.capacity
  · obtain ⟨cap, ord, idx⟩ := c
    simp only at hcap hnd hperm hlen hkeys hidx hfull
    rcases List.eq_nil_or_concat ord with rfl | ⟨l', a, rfl⟩
    · simp only [List.length_nil] at hfull
      omega
    · simp only [List.concat_eq_append] at *
      have hgl : (l' ++ [a]).getLast? = some a := List.getLast?_concat l'
      simp only [hfull, if_pos, ge_iff_le, le_refl, deleteLRU, hgl,
        List.dropLast_concat]
      simp only [List.map_append, List.map_cons, List.map_nil,
        List.nodup_append] at hnd
      obtain ⟨hnd', -, hdisj⟩ := hnd
      have hnotmem : a.key ∉ l'.map Item.key := fun hm => hdisj hm (by simp)
      have hknot : k ∉ l'.map Item.key := by
        intro hm; exact hkeys (by simp [hm])
      refine ⟨hcap, ?_, ?_, ?_⟩
      · show (it.key :: l'.map Item.key).Nodup
        rw [hkey]
        exact List.nodup_cons.mpr ⟨hknot, hnd'⟩
      · show (k :: idx.eraseP (fun x => x == a.key)).Perm (it.key :: l'.map Item.key)
        rw [hkey, eraseP_beq_eq_erase]
        refine List.Perm.cons k ?_
        have h2 : ((l' ++ [a]).map Item.key).erase a.key = l'.map Item.key := by
          rw [List.map_append, List.map_cons, List.map_nil,
            List.erase_append_right _ hnotmem, List.erase_cons_head,
            List.append_nil]
        have h3 := hperm.erase a.key
        rwa [h2] at h3
      · show (it :: l').length ≤ cap
        simp only [List.length_append, List.length_cons, List.length_nil] at hlen
        simp only [List.length_cons]
        omega
  · simp only [hfull, if_neg, ge_iff_le, not_le]
    refine ⟨hcap, ?_, ?_, ?_⟩
    · show (it.key :: c.order.map Item.key).Nodup
      rw [hkey]
      exact List.nodup_cons.mpr ⟨hkeys, hnd⟩
    · show (k :: c.index).Perm (it.key :: c.order.map Item.key)
      rw [hkey]
      exact List.Perm.cons k hperm
    · show (it :: c.order).length ≤ c.capacity
      simp only [List.length_cons]
      omega

lemma inv_add {c : Cache K V} (h : Inv c) (k : K) (v : V) : Inv (Add c k v) := by
  cases hl : itemsLookup c k with
  | some elem =>
      simpa [Add, hl] using inv_move_front hl _ rfl h
  | none =>
      simpa [Add, hl] using inv_insert_new (⟨k, v, 0⟩ : Item K V) rfl h hl

lemma inv_addWithTTL {c : Cache K V} (h : Inv c) (k : K) (v : V) (now d : Nat) :
    Inv (AddWithTTL c k v now d) := by
  cases hl : itemsLookup c k with
  | some elem =>
      simpa [AddWithTTL, hl] using inv_move_front hl _ rfl h
  | none =>
      simpa [AddWithTTL, hl] using
        inv_insert_new (⟨k, v, now + d⟩ : Item K V) rfl h hl

lemma inv_get {c : Cache K V} (h : Inv c) (k : K) (now : Nat) :
    Inv (Get c k now).2 := by
  cases hl : itemsLookup c k with
  | none => simpa [Get, hl] using h
  | some elem =>
      by_cases hexp : elem.ttl ≠ 0 ∧ elem.ttl < now
      · simpa [Get, hl, hexp] using inv_deleteItem h elem.key
      · simpa [Get, hl, hexp] using inv_move_front hl elem rfl h

lemma inv_clear {c : Cache K V} (h : Inv c) : Inv (Clear c) := by
  obtain ⟨hcap, -, -, -⟩ := h
  refine ⟨hcap, ?_, ?_, ?_⟩ <;> simp [Clear]

lemma inv_sweep (l : List (Item K V)) (now : Nat) :
    ∀ c : Cache K V, Inv c → Inv (deleteByTTLSweep l c now) := by
  induction l with
  | nil => intro c h; simpa [deleteByTTLSweep] using h
  | cons elem rest ih =>
      intro c h
      simp only [deleteByTTLSweep]
      apply ih
      by_cases he : elem.ttl < now
      · simpa [he] using inv_deleteItem h elem.key
      · simpa [he] using h

lemma inv_tick {c : Cache K V} (h : Inv c) (now : Nat) :
    Inv (deleteByTTLTick c now) :=
  inv_sweep c.order now c h

lemma inv_new {cap : Int} {c : Cache K V} (h : NewCache K V cap = .ok c) :
    Inv c := by
  unfold NewCache at h
  by_cases hc : cap ≤ 0
  · rw [if_pos hc] at h; exact absurd h (by simp)
  · rw [if_neg hc] at h
    obtain rfl : ({ capacity := cap.toNat, order := [], index := [] } :
        Cache K V) = c := by simpa using h
    refine ⟨?_, by simp, by simp, by simp⟩
    show 0 < cap.toNat
    omega

lemma reachable_inv {c : Cache K V} (h : Reachable c) : Inv c := by
  induction h with
  | new cap c hn => exact inv_new hn
  | add c k v _ ih => exact inv_add ih k v
  | addWithTTL c k v now d _ ih => exact inv_addWithTTL ih k v now d
  | get c k now _ ih => exact inv_get ih k now
  | remove c k _ ih => exact inv_deleteItem ih k
  | clear c _ ih => exact inv_clear ih
  | tick c now _ ih => exact inv_tick ih now

/-! ### Shape of the state after the add operations -/

lemma update_value_eq (a v : V) : (if a == v then a else v) = v := by
  by_cases h : a = v <;> simp [h]

lemma add_result (c : Cache K V) (k : K) (v : V) :
    (∃ rest, (Add c k v).order = ⟨k, v, 0⟩ :: rest) ∧ k ∈ (Add c k v).index := by
  cases hl : itemsLookup c k with
  | some elem =>
      obtain ⟨-, hk, hidx⟩ := lookup_some hl
      simp only [Add, hl]
      exact ⟨⟨_, by rw [hk, update_value_eq]⟩, hidx⟩
  | none =>
      simp only [Add, hl]
      exact ⟨⟨_, rfl⟩, by simp⟩

lemma addWithTTL_result (c : Cache K V) (k : K) (v : V) (now d : Nat) :
    (∃ rest, (AddWithTTL c k v now d).order = ⟨k, v, now + d⟩ :: rest) ∧
      k ∈ (AddWithTTL c k v now d).index := by
  cases hl : itemsLookup c k with
  | some elem =>
      obtain ⟨-, hk, hidx⟩ := lookup_some hl
      simp only [AddWithTTL, hl]
      exact ⟨⟨_, by rw [hk, update_value_eq]⟩, hidx⟩
  | none =>
      simp only [AddWithTTL, hl]
      exact ⟨⟨_, rfl⟩, by simp⟩

lemma get_head {c : Cache K V} {k : K} {v : V} {t : Nat} (now : Nat)
    (h1 : ∃ rest, c.order = ⟨k, v, t⟩ :: rest) (h2 : k ∈ c.index)
    (h3 : t = 0 ∨ now ≤ t) : (Get c k now).1 = some v := by
  obtain ⟨rest, hord⟩ := h1
  have hlook : itemsLookup c k = some ⟨k, v, t⟩ := by
    unfold itemsLookup
    rw [if_pos (by simpa using h2), hord]
    simp
  have hnotexp : ¬ ((⟨k, v, t⟩ : Item K V).ttl ≠ 0 ∧ (⟨k, v, t⟩ : Item K V).ttl < now) := by
    rcases h3 with h0 | hle
    · simp [h0]
    · exact fun hc => absurd hc.2 (not_lt.mpr hle)
  simp [Get, hlook, hnotexp]

/-! ### The capacity field is never written after construction -/

lemma cap_deleteItem (c : Cache K V) (k : K) :
    (deleteItem c k).capacity = c.capacity := by
  cases hl : itemsLookup c k <;> simp [deleteItem, hl]

lemma cap_deleteLRU (c : Cache K V) : (deleteLRU c).capacity = c.capacity := by
  cases hl : c.order.getLast? <;> simp [deleteLRU, hl]

lemma cap_add (c : Cache K V) (k : K) (v : V) :
    (Add c k v).capacity = c.capacity := by
  cases hl : itemsLookup c k with
  | some elem => simp [Add, hl]
  | none =>
      by_cases hfull : c.order.length ≥ c.capacity <;>
        simp [Add, hl, hfull, cap_deleteLRU]

lemma cap_addWithTTL (c : Cache K V) (k : K) (v : V) (now d : Nat) :
    (AddWithTTL c k v now d).capacity = c.capacity := by
  cases hl : itemsLookup c k with
  | some elem => simp [AddWithTTL, hl]
  | none =>
      by_cases hfull : c.order.length ≥ c.capacity <;>
        simp [AddWithTTL, hl, hfull, cap_deleteLRU]

lemma cap_get (c : Cache K V) (k : K) (now : Nat) :
    (Get c k now).2.capacity = c.capacity := by
  cases hl : itemsLookup c k with
  | none => simp [Get, hl]
  | some elem =>
      by_cases hexp : elem.ttl ≠ 0 ∧ elem.ttl < now <;>
        simp [Get, hl, hexp, cap_deleteItem]

lemma cap_sweep (l : List (Item K V)) (now : Nat) :
    ∀ c : Cache K V, (deleteByTTLSweep l c now).capacity = c.capacity := by
  induction l with
  | nil => intro c; rfl
  | cons elem rest ih =>
      intro c
      simp only [deleteByTTLSweep]
      by_cases he : elem.ttl < now
      · simp [he, ih, cap_deleteItem]
      · simp [he, ih]

/-! ### The claims -/

/-- C1: the claim says a sweep deletes exactly the nodes whose expiry is set
and not after now, and that an `Add`ed entry (no expiry) is never removed by
a sweep.  The code's sweep guard is `ttl.Before(time.Now())` with no
`IsZero` test, and the zero time is before any positive `now`: starting
from `NewCache(2)`, after `Add(1, 7)` the very first tick deletes the
entry, contradicting the claim. -/
theorem sweep_deletes_add_entry :
    NewCache Nat Nat 2 = .ok ⟨2, [], []⟩ ∧
    Add (⟨2, [], []⟩ : Cache Nat Nat) 1 7 = ⟨2, [⟨1, 7, 0⟩], [1]⟩ ∧
    deleteByTTLTick (⟨2, [⟨1, 7, 0⟩], [1]⟩ : Cache Nat Nat) 1 = ⟨2, [], []⟩ :=
  ⟨by rfl, by decide, by decide⟩

/-- C2: after every completed operation from a reachable state, the map keys
are a permutation of the recency-list keys (same node set, each key at most
once), and `len(order) == len(index) <= capacity`. -/
theorem lockstep_invariant (c : Cache K V) (h : Reachable c) :
    c.index.Perm (c.order.map Item.key) ∧
    (c.order.map Item.key).Nodup ∧
    c.index.length = c.order.length ∧
    c.order.length ≤ c.capacity := by
  obtain ⟨-, hnd, hperm, hlen⟩ := reachable_inv h
  exact ⟨hperm, hnd, by simpa using hperm.length_eq, hlen⟩

theorem lockstep_invariant_witness :
    (Add (⟨2, [], []⟩ : Cache Nat Nat) 1 5).index.Perm
        ((Add (⟨2, [], []⟩ : Cache Nat Nat) 1 5).order.map Item.key) ∧
    ((Add (⟨2, [], []⟩ : Cache Nat Nat) 1 5).order.map Item.key).Nodup ∧
    (Add (⟨2, [], []⟩ : Cache Nat Nat) 1 5).index.length =
      (Add (⟨2, [], []⟩ : Cache Nat Nat) 1 5).order.length ∧
    (Add (⟨2, [], []⟩ : Cache Nat Nat) 1 5).order.length ≤
      (Add (⟨2, [], []⟩ : Cache Nat Nat) 1 5).capacity :=
  lockstep_invariant _ (Reachable.add _ 1 5 (Reachable.new 2 _ (by rfl)))

/-- C3 counterexample: the claim says an entry whose expiry is set and not
after the current time is removed by `Get` with `(zero, false)`.  The code
tests `ttl.Before(now)`, which is strict: at `now` exactly equal to the
expiry (here an entry added by `AddWithTTL` with `d = 0` and read at the
same instant) `Get` returns the value and keeps the node. -/
theorem get_boundary_counterexample :
    NewCache Nat Nat 2 = .ok ⟨2, [], []⟩ ∧
    AddWithTTL (⟨2, [], []⟩ : Cache Nat Nat) 1 9 5 0 = ⟨2, [⟨1, 9, 5⟩], [1]⟩ ∧
    Get (⟨2, [⟨1, 9, 5⟩], [1]⟩ : Cache Nat Nat) 1 5 =
      (some 9, ⟨2, [⟨1, 9, 5⟩], [1]⟩) :=
  ⟨by rfl, by decide, by decide⟩

/-- C3 amended: `Get` returns `(zero, false)` on an absent key; removes the
node from index and list and returns `(zero, false)` when the expiry is set
and strictly before `now`; and moves the node to the front and returns
`(value, true)` when no expiry is set or the expiry is at or after `now`.
A freshly added TTL entry is never treated as already expired. -/
theorem get_semantics (c : Cache K V) (k : K) (now : Nat) :
    (itemsLookup c k = none → Get c k now = (none, c)) ∧
    (∀ elem, itemsLookup c k = some elem → elem.ttl ≠ 0 → elem.ttl < now →
      Get c k now =
        (none, { c with order := c.order.eraseP (fun x => x.key == k),
                        index := c.index.eraseP (fun x => x == k) })) ∧
    (∀ elem, itemsLookup c k = some elem → (elem.ttl = 0 ∨ now ≤ elem.ttl) →
      Get c k now =
        (some elem.value,
         { c with order := elem :: c.order.eraseP (fun x => x.key == k) })) ∧
    (∀ (v : V) (d : Nat), (Get (AddWithTTL c k v now d) k now).1 = some v) := by
  refine ⟨fun hl => by simp [Get, hl], ?_, ?_, ?_⟩
  · intro elem hl h0 hlt
    have hk := (lookup_some hl).2.1
    simp only [Get, hl, if_pos (And.intro h0 hlt)]
    simp only [deleteItem, hk, hl]
  · intro elem hl h3
    have hnot : ¬ (elem.ttl ≠ 0 ∧ elem.ttl < now) := by
      rcases h3 with h0 | hle
      · simp [h0]
      · exact fun hc => absurd hc.2 (not_lt.mpr hle)
    simp [Get, hl, hnot]
  · intro v d
    obtain ⟨h1, h2⟩ := addWithTTL_result c k v now d
    exact get_head now h1 h2 (Or.inr (Nat.le_add_right now d))

theorem get_semantics_witness :
    Get (⟨2, [⟨1, 9, 3⟩], [1]⟩ : Cache Nat Nat) 1 7 = (none, ⟨2, [], []⟩) :=
  ((get_semantics (⟨2, [⟨1, 9, 3⟩], [1]⟩ : Cache Nat Nat) 1 7).2.1
    ⟨1, 9, 3⟩ (by rfl) (by decide) (by decide))

/-- C4: immediately after `Add(k, v)` a `Get(k)` returns `(v, true)`, and
the node for `k` sits at the front with its value replaced and any
previously set expiry cleared (the zero-time `ttl`). -/
theorem add_then_get (c : Cache K V) (k : K) (v : V) (now : Nat) :
    (Get (Add c k v) k now).1 = some v ∧
    (∃ rest, (Add c k v).order = ⟨k, v, 0⟩ :: rest) := by
  obtain ⟨h1, h2⟩ := add_result c k v
  exact ⟨get_head now h1 h2 (Or.inl rfl), h1⟩

/-- C5: an update of an existing key never evicts (the key set of the list
is only permuted); inserting a new key below capacity evicts nothing; at
capacity it removes exactly the node at the back of the recency list; and
in the spec's concrete scenario (capacity 3, `Add A, B, C`, `Get A`,
`Add D`) the evicted key is B while A, C, D remain retrievable. -/
theorem eviction_strict_lru (c : Cache K V) (k : K) (v : V) :
    ((∃ elem, itemsLookup c k = some elem) →
      ((Add c k v).order.map Item.key).Perm (c.order.map Item.key)) ∧
    (itemsLookup c k = none → c.order.length < c.capacity →
      (Add c k v).order = ⟨k, v, 0⟩ :: c.order) ∧
    (itemsLookup c k = none → c.capacity ≤ c.order.length →
      ∀ front back, c.order = front ++ [back] →
        (Add c k v).order = ⟨k, v, 0⟩ :: front ∧
        (Add c k v).index = k :: c.index.erase back.key) ∧
    ((Get lruScenario 2 100).1 = none ∧ (Get lruScenario 1 100).1 = some 10 ∧
      (Get lruScenario 3 100).1 = some 30 ∧
      (Get lruScenario 4 100).1 = some 40) := by
  refine ⟨?_, ?_, ?_, by decide⟩
  · rintro ⟨elem, hl⟩
    obtain ⟨hmem, hk, -⟩ := lookup_some hl
    have hkmem : k ∈ c.order.map Item.key := by
      simpa [hk] using List.mem_map_of_mem Item.key hmem
    simp only [Add, hl, List.map_cons, map_key_eraseP]
    have hhd :
        ({ elem with
            value := (if elem.value == v then elem.value else v),
            ttl := 0 } : Item K V).key = k := hk
    rw [hhd]
    exact (List.perm_cons_erase hkmem).symm
  · intro hl hlen
    have hfull : ¬ c.order.length ≥ c.capacity := not_le.mpr hlen
    simp [Add, hl, hfull]
  · intro hl hcap front back hord
    have hfull : c.order.length ≥ c.capacity := hcap
    have hgl : c.order.getLast? = some back := by
      rw [hord]; exact List.getLast?_concat _
    simp only [Add, hl, if_pos hfull, deleteLRU, hgl]
    refine ⟨?_, ?_⟩
    · rw [hord, List.dropLast_concat]
    · rw [eraseP_beq_eq_erase]

theorem eviction_strict_lru_witness :
    (Add (⟨1, [⟨1, 5, 0⟩], [1]⟩ : Cache Nat Nat) 2 6).order =
      [⟨2, 6, 0⟩] ∧
    (Add (⟨1, [⟨1, 5, 0⟩], [1]⟩ : Cache Nat Nat) 2 6).index =
      2 :: ([1] : List Nat).erase 1 :=
  ((eviction_strict_lru (⟨1, [⟨1, 5, 0⟩], [1]⟩ : Cache Nat Nat) 2 6).2.2.1
    (by rfl) (by decide) [] ⟨1, 5, 0⟩ (by rfl))

/-- C6: `NewCache(c)` fails with the `invalid capacity` error exactly when
`c <= 0`; for positive `c` it returns a cache with empty index and list
whose `Cap()` is `c`; and no operation ever writes the capacity field. -/
theorem newCache_validation :
    ∀ cap : Int,
      (NewCache K V cap = .error "invalid capacity" ↔ cap ≤ 0) ∧
      (0 < cap → NewCache K V cap = .ok ⟨cap.toNat, [], []⟩ ∧
        ((Cap (⟨cap.toNat, [], []⟩ : Cache K V) : Int) = cap)) ∧
      (∀ (c : Cache K V) (k : K) (v : V) (now d : Nat),
        Cap (Add c k v) = Cap c ∧ Cap (AddWithTTL c k v now d) = Cap c ∧
        Cap (Get c k now).2 = Cap c ∧ Cap (Remove c k) = Cap c ∧
        Cap (Clear c) = Cap c ∧ Cap (deleteByTTLTick c now) = Cap c) := by
  intro cap
  refine ⟨⟨?_, ?_⟩, ?_, ?_⟩
  · intro h
    by_contra hc
    push_neg at hc
    simp [NewCache, not_le.mpr hc] at h
  · intro h
    simp [NewCache, h]
  · intro hpos
    have hneg : ¬ cap ≤ 0 := not_le.mpr hpos
    refine ⟨by simp [NewCache, hneg], ?_⟩
    show ((cap.toNat : Int) = cap)
    exact Int.toNat_of_nonneg hpos.le
  · intro c k v now d
    exact ⟨cap_add c k v, cap_addWithTTL c k v now d, cap_get c k now,
      cap_deleteItem c k, rfl, cap_sweep c.order now c⟩

theorem newCache_validation_witness :
    NewCache Nat Nat (-3) = .error "invalid capacity" ∧
    NewCache Nat Nat 4 = .ok ⟨4, [], []⟩ ∧
    Cap (Clear (⟨4, [], []⟩ : Cache Nat Nat)) = Cap (⟨4, [], []⟩ : Cache Nat Nat) :=
  ⟨(newCache_validation (K := Nat) (V := Nat) (-3)).1.mpr (by decide),
   ((newCache_validation (K := Nat) (V := Nat) 4).2.1 (by decide)).1,
   ((newCache_validation (K := Nat) (V := Nat) 4).2.2 ⟨4, [], []⟩ 0 0 0 0).2.2.2.2.1⟩

/-- C7 counterexample: the claim says `Add` never fails for values of any
dynamic type.  Go's `elem.value != value` comparison aborts the run when
both interface values carry the same uncomparable dynamic type: adding a
second value of uncomparable type 0 under an existing key faults
(modelled `none`). -/
theorem add_uncomparable_panics :
    AddGo (⟨1, [], []⟩ : Cache Nat GoVal) 1 ⟨0, 1, false⟩ =
      some ⟨1, [⟨1, ⟨0, 1, false⟩, 0⟩], [1]⟩ ∧
    AddGo (⟨1, [⟨1, ⟨0, 1, false⟩, 0⟩], [1]⟩ : Cache Nat GoVal) 1
      ⟨0, 2, false⟩ = none := by
  constructor <;> decide

/-- C7 amended: `Add` and `AddWithTTL` (and hence every public operation)
have no failure path provided the values involved are of comparable dynamic
types; absence of a key is reported only through the `found=false` result
of `Get`. -/
theorem add_total_for_comparable (c : Cache K GoVal) (k : K) (v : GoVal)
    (now d : Nat) (hv : v.cmp = true)
    (hstore : ∀ x ∈ c.order, x.value.ty = v.ty → x.value.cmp = true) :
    (AddGo c k v).isSome ∧ (AddWithTTLGo c k v now d).isSome := by
  cases hl : itemsLookup c k with
  | none => simp [AddGo, AddWithTTLGo, hl]
  | some elem =>
      have hm := (lookup_some hl).1
      simp only [AddGo, AddWithTTLGo, hl]
      by_cases hty : elem.value.ty = v.ty
      · have hcmp : elem.value.cmp = true := hstore elem hm hty
        simp [goValNe, hty, hcmp, hv]
      · simp [goValNe, hty]

theorem add_total_for_comparable_witness :
    (AddGo (⟨1, [⟨1, ⟨0, 1, true⟩, 0⟩], [1]⟩ : Cache Nat GoVal) 1
      ⟨0, 2, true⟩).isSome ∧
    (AddWithTTLGo (⟨1, [⟨1, ⟨0, 1, true⟩, 0⟩], [1]⟩ : Cache Nat GoVal) 1
      ⟨0, 2, true⟩ 5 3).isSome :=
  add_total_for_comparable _ 1 _ 5 3 (by decide) (by decide)

/-- C8: the claim requires stop to be one-shot and idempotent.  The first
`StopTTLRemoval` rendezvouses with the reaper's `select` and stops it; but
the `done` channel is unbuffered and the reaper has returned, so a repeated
call finds no receiver and blocks forever (`none`), contradicting the
claim that repeated calls neither block nor fail. -/
theorem stop_transition_one_shot :
    StopTTLRemoval ReaperState.running = some ReaperState.stopped ∧
    StopTTLRemoval ReaperState.stopped = none :=
  ⟨rfl, rfl⟩

/-- C9: `Remove(k)` on a present key deletes its node from both index and
list and a subsequent `Get(k)` reports not-found without touching the
state; `Remove(k)` on an absent key is exactly the identity. -/
theorem remove_semantics (c : Cache K V) (k : K) (now : Nat)
    (h : Reachable c) :
    (itemsLookup c k = none → Remove c k = c) ∧
    (∀ elem, itemsLookup c k = some elem →
      (Remove c k).order = c.order.eraseP (fun x => x.key == k) ∧
      (Remove c k).index = c.index.erase k ∧
      (Get (Remove c k) k now).1 = none ∧
      (Get (Remove c k) k now).2 = Remove c k) := by
  refine ⟨fun hl => by simp [Remove, deleteItem, hl], ?_⟩
  intro elem hl
  have hk := (lookup_some hl).2.1
  have horder : (Remove c k).order = c.order.eraseP (fun x => x.key == k) := by
    simp only [Remove, deleteItem, hl, hk]
  have hindex : (Remove c k).index = c.index.erase k := by
    simp only [Remove, deleteItem, hl, hk, eraseP_beq_eq_erase]
  obtain ⟨-, hnd, hperm, -⟩ := reachable_inv h
  have hidxnd : c.index.Nodup := hperm.nodup_iff.mpr hnd
  have hnotmem : k ∉ (Remove c k).index := by
    rw [hindex]
    intro hmm
    exact absurd rfl (hidxnd.mem_erase_iff.mp hmm).1
  have hlook2 : itemsLookup (Remove c k) k = none := by
    unfold itemsLookup
    rw [if_neg (by simpa using hnotmem)]
  exact ⟨horder, hindex, by simp [Get, hlook2], by simp [Get, hlook2]⟩

theorem remove_semantics_witness :
    (Get (Remove (Add (⟨2, [], []⟩ : Cache Nat Nat) 1 5) 1) 1 0).1 = none :=
  ((remove_semantics _ 1 0
      (Reachable.add _ 1 5 (Reachable.new 2 _ (by rfl)))).2
    ⟨1, 5, 0⟩ (by rfl)).2.2.1

/-- C10: `Get` never changes the capacity and never rewrites any stored
entry — every node of the resulting list is literally a node of the old
list, so no value, expiry or TTL is modified; its only possible effects are
leaving the state unchanged, deleting the queried node from index and list,
or moving the queried node to the front. -/
theorem get_frame (c : Cache K V) (k : K) (now : Nat) :
    (Get c k now).2.capacity = c.capacity ∧
    (∀ x ∈ (Get c k now).2.order, x ∈ c.order) ∧
    ((Get c k now).2 = c ∨
      (Get c k now).2 =
        { c with order := c.order.eraseP (fun x => x.key == k),
                 index := c.index.eraseP (fun x => x == k) } ∨
      (∃ elem, itemsLookup c k = some elem ∧
        (Get c k now).2 =
          { c with order := elem :: c.order.eraseP (fun x => x.key == k) })) := by
  refine ⟨cap_get c k now, ?_, ?_⟩
  · intro x hx
    cases hl : itemsLookup c k with
    | none => simpa [Get, hl] using hx
    | some elem =>
        by_cases hexp : elem.ttl ≠ 0 ∧ elem.ttl < now
        · have hk := (lookup_some hl).2.1
          simp only [Get, hl, if_pos hexp, deleteItem, hk, hl] at hx
          exact (List.eraseP_sublist _).subset hx
        · simp only [Get, hl, if_neg hexp] at hx
          rcases List.mem_cons.mp hx with rfl | hx'
          · exact (lookup_some hl).1
          · exact (List.eraseP_sublist _).subset hx'
  · cases hl : itemsLookup c k with
    | none => exact Or.inl (by simp [Get, hl])
    | some elem =>
        by_cases hexp : elem.ttl ≠ 0 ∧ elem.ttl < now
        · refine Or.inr (Or.inl ?_)
          have hk := (lookup_some hl).2.1
          simp only [Get, hl, if_pos hexp, deleteItem, hk, hl]
        · exact Or.inr (Or.inr ⟨elem, rfl, by simp [Get, hl, hexp]⟩)

theorem get_frame_witness :
    (Get (⟨2, [⟨1, 5, 0⟩], [1]⟩ : Cache Nat Nat) 1 9).2.capacity = 2 :=
  (get_frame (⟨2, [⟨1, 5, 0⟩], [1]⟩ : Cache Nat Nat) 1 9).1

end LRUCache
